import Mathlib

/-
Verification of the dynamic-array integer set implemented in IntSet.cpp.

The C++ class stores distinct int values in a heap-allocated array `data`
of `capacity` slots; the first `used` slots hold the members in order of
membership age.  The embedding below models the buffer as a `List Int`
(whose length models the allocated size), and `capacity`/`used` as `Nat`
(both are C++ `int` members, but every reachable state keeps them
non-negative with `used <= capacity`).  Uninitialised array slots
(`new int[n]` performs default-initialisation) are modelled as the value 0;
invariant (6) of the source states their content is irrelevant.
-/

/-- Modelled from the spec: the class header IntSet.h, which defines the
constant DEFAULT_CAPACITY, is not among the repository's files; the spec
describes it as "a fixed positive constant (e.g., 10)" used whenever a
non-positive capacity is requested at construction or growth-floor time. -/
def DEFAULT_CAPACITY : Nat := 10

/-- State of one IntSet object: the buffer contents, the allocated size
`capacity`, and the number `used` of relevant leading slots. -/
structure IntSet where
  data : List Int
  capacity : Nat
  used : Nat
deriving DecidableEq

namespace IntSet

/-- Buffer produced by `new int[c]` followed by the loop
`for(i = 0; i < u; i++) newData[i] = d[i]`: the first `u` values of `d`,
then uninitialised slots (modelled 0).  When `u > c` the C++ loop would
write out of bounds (undefined behaviour, unreachable from the public
interface); the model truncates the copy instead. -/
def copyBuf (d : List Int) (u c : Nat) : List Int :=
  d.take (min u c) ++ List.replicate (c - min u c) 0

/-- IntSet::resize (IntSet.cpp lines 79-95).  The effective capacity:
non-positive requests fall back to DEFAULT_CAPACITY, otherwise requests
below `used` are clamped up to `used`, otherwise the request is taken
as is.  The first `used` values are copied into the fresh buffer. -/
def resize (s : IntSet) (new_capacity : Int) : IntSet :=
  let cap : Nat :=
    if new_capacity ≤ 0 then DEFAULT_CAPACITY
    else if new_capacity < (s.used : Int) then s.used
    else new_capacity.toNat
  { data := copyBuf s.data s.used cap, capacity := cap, used := s.used }

/-- IntSet::IntSet(int initial_capacity) (lines 97-103): non-positive
requests are replaced by DEFAULT_CAPACITY; the buffer starts
uninitialised (modelled as zeros) and `used = 0`. -/
def mkIntSet (initial_capacity : Int) : IntSet :=
  let cap : Nat :=
    if initial_capacity ≤ 0 then DEFAULT_CAPACITY else initial_capacity.toNat
  { data := List.replicate cap 0, capacity := cap, used := 0 }

/-- IntSet::IntSet(const IntSet&) (lines 105-111): allocate
`src.capacity` slots and copy the first `src.used` values. -/
def copyIntSet (src : IntSet) : IntSet :=
  { data := copyBuf src.data src.used src.capacity
    capacity := src.capacity
    used := src.used }

/-- IntSet::operator= (lines 119-138), on the non-self branch: build a
fresh buffer of `rhs.capacity` slots holding `rhs`'s first `rhs.used`
values and take over `rhs`'s capacity and count.  The self-assignment
guard (`this == &rhs` returns `*this` unchanged) needs no separate case
in a value model: the result below then equals the receiver's value. -/
def assign (s rhs : IntSet) : IntSet :=
  { data := copyBuf rhs.data rhs.used rhs.capacity
    capacity := rhs.capacity
    used := rhs.used }

/-- IntSet::size (lines 140-143). -/
def size (s : IntSet) : Nat := s.used

/-- IntSet::isEmpty (lines 145-151). -/
def isEmpty (s : IntSet) : Bool := s.used == 0

/-- IntSet::contains (lines 153-164): scan positions [0, used) for
`anInt`. -/
def contains (s : IntSet) (anInt : Int) : Bool :=
  (s.data.take s.used).contains anInt

/-- IntSet::isSubsetOf (lines 165-178): an empty set is a subset of
anything; otherwise every value in positions [0, used) must be
contained in the other set. -/
def isSubsetOf (s other : IntSet) : Bool :=
  if s.isEmpty then true
  else (s.data.take s.used).all (fun v => other.contains v)

/-- The sequence of values IntSet::DumpData (lines 180-188) prints, in
order: `data[0] .. data[used-1]` (separated by two spaces). -/
def dumpSeq (s : IntSet) : List Int := s.data.take s.used

/-- The conditional growth step at the start of IntSet::add (lines
237-238): when `used >= capacity`, call `resize(int(1.5 * capacity) + 1)`.
`1.5 * capacity` is exact in double precision and the conversion to int
truncates towards zero, so for the non-negative `capacity` the request
is `3 * capacity / 2 + 1` in natural-number division. -/
def growIfFull (s : IntSet) : IntSet :=
  if s.used ≥ s.capacity then s.resize ((3 * s.capacity / 2 + 1 : Nat) : Int)
  else s

/-- IntSet::add (lines 233-245): if absent, grow when full, write at
position `used`, increment `used`, return true; otherwise return false
with no change. -/
def add (s : IntSet) (anInt : Int) : IntSet × Bool :=
  if s.contains anInt = false then
    let s' := growIfFull s
    ({ s' with data := s'.data.set s'.used anInt, used := s'.used + 1 }, true)
  else
    (s, false)

/-- The inner scan of IntSet::remove (lines 251-253): index of the first
occurrence of `anInt`, scanning upward from position 0. -/
def findFirst (anInt : Int) : List Int → Option Nat
  | [] => none
  | v :: rest => if v == anInt then some 0 else (findFirst anInt rest).map (· + 1)

/-- IntSet::remove (lines 247-263): if `contains` succeeds, scan for the
first position `i` holding `anInt`, shift positions (i, used) left by
one (`data[j] = data[j+1]` for j in [i, used-1); the stale copy at
position used-1 stays), decrement `used`, return true.  The trailing
branch returns false when the scan finds nothing. -/
def remove (s : IntSet) (anInt : Int) : IntSet × Bool :=
  if s.contains anInt then
    match findFirst anInt (s.data.take s.used) with
    | some i =>
        ({ s with
            data := s.data.take i ++ (s.data.drop (i + 1)).take (s.used - 1 - i)
              ++ s.data.drop (s.used - 1)
            used := s.used - 1 }, true)
    | none => (s, false)
  else (s, false)

/-- IntSet::reset (lines 228-231). -/
def reset (s : IntSet) : IntSet := { s with used := 0 }

/-- Loop body of IntSet::unionWith (lines 195-199): add the value when
the accumulating union does not contain it yet. -/
def unionStep (u : IntSet) (v : Int) : IntSet :=
  if u.contains v = false then (u.add v).1 else u

/-- IntSet::unionWith (lines 190-201): start from a copy of the invoking
set and run `unionStep` over `other.data[0] .. other.data[otherSize-1]`
(the size is read once, before the loop). -/
def unionWith (s other : IntSet) : IntSet :=
  (other.data.take other.used).foldl unionStep (copyIntSet s)

/-- Loop body of IntSet::intersect (lines 207-211): remove the value
from the accumulating result when `other` does not contain it. -/
def intersectStep (other r : IntSet) (v : Int) : IntSet :=
  if other.contains v = false then (r.remove v).1 else r

/-- IntSet::intersect (lines 203-213): start from a copy of the invoking
set and run `intersectStep` over the invoking set's own values
`data[0] .. data[size()-1]` (`size()` reads the invoking set, which the
loop never mutates). -/
def intersect (s other : IntSet) : IntSet :=
  (s.data.take s.used).foldl (intersectStep other) (copyIntSet s)

/-- Loop body of IntSet::subtract (lines 220-224): remove the value from
the accumulating result when the result still contains it. -/
def subtractStep (r : IntSet) (v : Int) : IntSet :=
  if r.contains v then (r.remove v).1 else r

/-- IntSet::subtract (lines 215-226): start from a copy of the invoking
set and run `subtractStep` over `other.data[0] .. other.data[otherSize-1]`
(the size is read once, before the loop). -/
def subtract (s other : IntSet) : IntSet :=
  (other.data.take other.used).foldl subtractStep (copyIntSet s)

/-- operator== (lines 265-274): unequal sizes give false; otherwise the
sets are equal exactly when each is a subset of the other. -/
def intSetEq (is1 is2 : IntSet) : Bool :=
  if is1.size != is2.size then false
  else if is1.isSubsetOf is2 && is2.isSubsetOf is1 then true
  else false

/-- The class invariant of IntSet.cpp (comment block, lines 4-42),
together with the model-level fact tying the buffer to the capacity:
positions [0, used) hold pairwise-distinct values (1), `used` never
exceeds `capacity`, the capacity is at least 1 (a zero-sized buffer is
never requested), and the buffer has exactly `capacity` slots. -/
def Invariant (s : IntSet) : Prop :=
  (s.data.take s.used).Nodup ∧ s.used ≤ s.capacity ∧ 1 ≤ s.capacity ∧
    s.data.length = s.capacity

instance (s : IntSet) : Decidable (Invariant s) := by
  unfold Invariant
  infer_instance

/-- IntSet::unionWith with the state of all three objects involved
(result, invoking object, argument) threaded through each loop
iteration explicitly, reading `otherIntSet.data[i]` from the threaded
argument state.  Its fixed iteration count is `otherSize`, stored from
the argument before the loop. -/
def unionWithS (a b : IntSet) : IntSet × IntSet × IntSet :=
  (List.range b.used).foldl
    (fun st i => (unionStep st.1 (st.2.2.data.getD i 0), st.2.1, st.2.2))
    (copyIntSet a, a, b)

/-- IntSet::intersect with the state of all three objects threaded
explicitly, reading `data[i]` and `size()` from the threaded invoking
state.  The loop bound `size()` is re-read each iteration in the
source; no iteration mutates the invoking object, so the bound stays
the initial `a.used`. -/
def intersectS (a b : IntSet) : IntSet × IntSet × IntSet :=
  (List.range a.used).foldl
    (fun st i => (intersectStep st.2.2 st.1 (st.2.1.data.getD i 0), st.2.1, st.2.2))
    (copyIntSet a, a, b)

/-- IntSet::subtract with the state of all three objects threaded
explicitly, reading `otherIntSet.data[i]` from the threaded argument
state.  Its fixed iteration count is `otherSize`, stored from the
argument before the loop. -/
def subtractS (a b : IntSet) : IntSet × IntSet × IntSet :=
  (List.range b.used).foldl
    (fun st i => (subtractStep st.1 (st.2.2.data.getD i 0), st.2.1, st.2.2))
    (copyIntSet a, a, b)

end IntSet

namespace IntSet

theorem copyBuf_length {d : List Int} {u : Nat} (c : Nat) (hd : u ≤ d.length) :
    (copyBuf d u c).length = c := by
  simp only [copyBuf, List.length_append, List.length_take, List.length_replicate]
  omega

theorem copyBuf_take {d : List Int} {u c : Nat} (hc : u ≤ c) (hd : u ≤ d.length) :
    (copyBuf d u c).take u = d.take u := by
  have hmin : min u c = u := min_eq_left hc
  have hlen : (d.take u).length = u := by
    simp [List.length_take, Nat.min_eq_left hd]
  calc (copyBuf d u c).take u
      = (d.take u ++ List.replicate (c - u) 0).take u := by rw [copyBuf, hmin]
    _ = (d.take u).take u := List.take_append_of_le_length (by omega)
    _ = d.take u := by simp [List.take_take]

theorem contains_iff {s : IntSet} {x : Int} :
    s.contains x = true ↔ x ∈ dumpSeq s := by
  simp [contains, dumpSeq, List.contains]

theorem contains_false_iff {s : IntSet} {x : Int} :
    s.contains x = false ↔ x ∉ dumpSeq s := by
  rw [← Bool.not_eq_true, not_iff_not]
  exact contains_iff

theorem dumpSeq_length {s : IntSet} (h : Invariant s) :
    (dumpSeq s).length = s.used := by
  obtain ⟨-, h1, -, h3⟩ := h
  simp [dumpSeq, List.length_take]
  omega

theorem resize_used (s : IntSet) (r : Int) : (s.resize r).used = s.used := rfl

theorem resize_spec {s : IntSet} (h : Invariant s) {r : Int}
    (hpos : 0 < r) (hge : (s.used : Int) ≤ r) :
    (s.resize r).capacity = r.toNat ∧ Invariant (s.resize r) ∧
      dumpSeq (s.resize r) = dumpSeq s := by
  obtain ⟨hnd, h1, h2, h3⟩ := h
  have hd : s.used ≤ s.data.length := by omega
  have hcap : (s.resize r).capacity = r.toNat := by
    simp only [resize]
    rw [if_neg (by omega), if_neg (by omega)]
  have hle : s.used ≤ r.toNat := by omega
  have hdump : dumpSeq (s.resize r) = dumpSeq s := by
    simp only [resize, dumpSeq]
    rw [if_neg (by omega), if_neg (by omega)]
    exact copyBuf_take hle hd
  refine ⟨hcap, ⟨?_, ?_, ?_, ?_⟩, hdump⟩
  · show (dumpSeq (s.resize r)).Nodup
    rw [hdump]; exact hnd
  · rw [resize_used, hcap]; omega
  · rw [hcap]; omega
  · show (s.resize r).data.length = (s.resize r).capacity
    rw [hcap]
    simp only [resize]
    rw [if_neg (by omega), if_neg (by omega)]
    exact copyBuf_length _ hd

theorem growIfFull_spec {s : IntSet} (h : Invariant s) :
    Invariant (growIfFull s) ∧ (growIfFull s).used = s.used ∧
      s.used < (growIfFull s).capacity ∧ dumpSeq (growIfFull s) = dumpSeq s := by
  by_cases hfull : s.used ≥ s.capacity
  · have hused : s.used = s.capacity := le_antisymm h.2.1 hfull
    have hc1 : 1 ≤ s.capacity := h.2.2.1
    have hreq : (0 : Int) < ((3 * s.capacity / 2 + 1 : Nat) : Int) := by
      positivity
    have hgrow : s.capacity < 3 * s.capacity / 2 + 1 := by omega
    have hge : (s.used : Int) ≤ ((3 * s.capacity / 2 + 1 : Nat) : Int) :=
      Nat.cast_le.mpr (by omega)
    obtain ⟨hcap, hinv, hdump⟩ := resize_spec h hreq hge
    have hval : growIfFull s = s.resize ((3 * s.capacity / 2 + 1 : Nat) : Int) := by
      rw [growIfFull, if_pos hfull]
    rw [hval]
    refine ⟨hinv, resize_used s _, ?_, hdump⟩
    rw [hcap, Int.toNat_natCast, ← hused] at *
    omega
  · rw [growIfFull, if_neg hfull]
    exact ⟨h, rfl, by omega, rfl⟩

theorem add_false_of_contains {s : IntSet} {x : Int} (hx : s.contains x = true) :
    s.add x = (s, false) := by
  rw [add, if_neg (by simp [hx])]

theorem remove_false_of_not_contains {s : IntSet} {x : Int}
    (hx : s.contains x = false) :
    s.remove x = (s, false) := by
  rw [remove, if_neg (by simp [hx])]

theorem add_spec {s : IntSet} {x : Int} (h : Invariant s)
    (hx : s.contains x = false) :
    (s.add x).2 = true ∧ dumpSeq (s.add x).1 = dumpSeq s ++ [x] ∧
      Invariant (s.add x).1 := by
  obtain ⟨hinv', hused', hlt', hdump'⟩ := growIfFull_spec h
  set s' := growIfFull s with hs'
  obtain ⟨hnd, h1, h2, h3⟩ := hinv'
  have hlen : s'.used < s'.data.length := by omega
  have hval : s.add x =
      ({ s' with data := s'.data.set s'.used x, used := s'.used + 1 }, true) := by
    rw [add, if_pos (by simp [hx])]
  have hset : s'.data.set s'.used x =
      s'.data.take s'.used ++ x :: s'.data.drop (s'.used + 1) := by
    rw [List.set_eq_take_append_cons_drop, if_pos hlen]
  have htake1 : (s'.data.set s'.used x).take (s'.used + 1) =
      s'.data.take s'.used ++ [x] := by
    rw [hset]
    have hl : (s'.data.take s'.used).length = s'.used := by
      simp [List.length_take]; omega
    calc (s'.data.take s'.used ++ x :: s'.data.drop (s'.used + 1)).take (s'.used + 1)
        = (s'.data.take s'.used ++ x :: s'.data.drop (s'.used + 1)).take
            ((s'.data.take s'.used).length + 1) := by rw [hl]
      _ = s'.data.take s'.used ++ (x :: s'.data.drop (s'.used + 1)).take 1 :=
          List.take_append 1
      _ = s'.data.take s'.used ++ [x] := by simp
  have hdump : dumpSeq (s.add x).1 = dumpSeq s ++ [x] := by
    rw [hval]
    show (s'.data.set s'.used x).take (s'.used + 1) = dumpSeq s ++ [x]
    rw [htake1, ← hdump']
    rfl
  refine ⟨by rw [hval], hdump, ?_, ?_, ?_, ?_⟩
  · show ((s.add x).1.data.take (s.add x).1.used).Nodup
    have : (s.add x).1.data.take (s.add x).1.used = dumpSeq s ++ [x] := hdump
    rw [this]
    have hxmem : x ∉ dumpSeq s := contains_false_iff.mp hx
    simp [List.nodup_append, hxmem]
    exact hdump' ▸ hnd
  · show (s.add x).1.used ≤ (s.add x).1.capacity
    rw [hval]
    show s'.used + 1 ≤ s'.capacity
    omega
  · show 1 ≤ (s.add x).1.capacity
    rw [hval]; exact h2
  · show (s.add x).1.data.length = (s.add x).1.capacity
    rw [hval]
    show (s'.data.set s'.used x).length = s'.capacity
    rw [List.length_set]; exact h3

theorem findFirst_none_iff {x : Int} : ∀ {l : List Int},
    findFirst x l = none ↔ x ∉ l := by
  intro l
  induction l with
  | nil => simp [findFirst]
  | cons v rest ih =>
    by_cases hv : v == x
    · have : v = x := by simpa using hv
      simp [findFirst, hv, this]
    · have hne : ¬x = v := fun h => hv (by simp [h])
      simp [findFirst, hv, Option.map_eq_none', ih, hne]

theorem findFirst_some_spec {x : Int} : ∀ {l : List Int} {i : Nat},
    findFirst x l = some i → i < l.length ∧ l.eraseIdx i = l.erase x := by
  intro l
  induction l with
  | nil => intro i h; simp [findFirst] at h
  | cons v rest ih =>
    intro i h
    by_cases hv : v == x
    · have hvx : v = x := by simpa using hv
      rw [findFirst, if_pos hv] at h
      obtain rfl : i = 0 := by simpa using h.symm
      refine ⟨by simp, ?_⟩
      simp [List.erase_cons, hvx]
    · rw [findFirst, if_neg hv] at h
      obtain ⟨j, hj, rfl⟩ := Option.map_eq_some'.mp h
      obtain ⟨hjl, hje⟩ := ih hj
      refine ⟨by simpa using Nat.succ_lt_succ hjl, ?_⟩
      simp [List.eraseIdx_cons_succ, List.erase_cons, hv, hje]

theorem remove_spec {s : IntSet} {x : Int} (h : Invariant s)
    (hx : s.contains x = true) :
    (s.remove x).2 = true ∧ dumpSeq (s.remove x).1 = (dumpSeq s).erase x ∧
      Invariant (s.remove x).1 := by
  obtain ⟨hnd, h1, h2, h3⟩ := h
  have hd : s.used ≤ s.data.length := by omega
  have hLlen : (s.data.take s.used).length = s.used := by
    simp [List.length_take]; omega
  have hmem : x ∈ s.data.take s.used := contains_iff.mp hx
  obtain ⟨i, hi⟩ : ∃ i, findFirst x (s.data.take s.used) = some i := by
    cases hfind : findFirst x (s.data.take s.used) with
    | none => exact absurd hmem (findFirst_none_iff.mp hfind)
    | some i => exact ⟨i, rfl⟩
  obtain ⟨hilen, hierase⟩ := findFirst_some_spec hi
  have hiu : i < s.used := hLlen ▸ hilen
  have hval : s.remove x =
      ({ s with
          data := s.data.take i ++ (s.data.drop (i + 1)).take (s.used - 1 - i)
            ++ s.data.drop (s.used - 1)
          used := s.used - 1 }, true) := by
    rw [remove, if_pos hx, hi]
  have len1 : (s.data.take i).length = i := by
    simp [List.length_take]; omega
  have len2 : ((s.data.drop (i + 1)).take (s.used - 1 - i)).length =
      s.used - 1 - i := by
    simp [List.length_take, List.length_drop]; omega
  have hA : (s.data.take i ++ (s.data.drop (i + 1)).take (s.used - 1 - i)).length =
      s.used - 1 := by
    rw [List.length_append, len1, len2]; omega
  have hdump : dumpSeq (s.remove x).1 = (dumpSeq s).erase x := by
    rw [hval]
    show ((s.data.take i ++ (s.data.drop (i + 1)).take (s.used - 1 - i))
        ++ s.data.drop (s.used - 1)).take (s.used - 1) = (dumpSeq s).erase x
    rw [List.take_append_of_le_length (le_of_eq hA.symm),
      List.take_of_length_le (le_of_eq hA)]
    simp only [dumpSeq]
    rw [← hierase, List.eraseIdx_eq_take_drop_succ, List.take_take,
      min_eq_left (le_of_lt hiu), List.drop_take,
      show s.used - (i + 1) = s.used - 1 - i from by omega]
  refine ⟨by rw [hval], hdump, ?_, ?_, ?_, ?_⟩
  · show (dumpSeq (s.remove x).1).Nodup
    rw [hdump]
    simp only [dumpSeq]
    rw [← hierase]
    exact ((s.data.take s.used).eraseIdx_sublist i).nodup hnd
  · show (s.remove x).1.used ≤ (s.remove x).1.capacity
    rw [hval]
    show s.used - 1 ≤ s.capacity
    omega
  · show 1 ≤ (s.remove x).1.capacity
    rw [hval]; exact h2
  · show (s.remove x).1.data.length = (s.remove x).1.capacity
    rw [hval]
    show (s.data.take i ++ (s.data.drop (i + 1)).take (s.used - 1 - i)
        ++ s.data.drop (s.used - 1)).length = s.capacity
    rw [List.length_append, List.length_append, len1, len2, List.length_drop]
    omega

theorem add_invariant {s : IntSet} (h : Invariant s) (x : Int) :
    Invariant (s.add x).1 := by
  by_cases hx : s.contains x = true
  · rw [add_false_of_contains hx]; exact h
  · exact (add_spec h (by simpa using hx)).2.2

theorem remove_invariant {s : IntSet} (h : Invariant s) (x : Int) :
    Invariant (s.remove x).1 := by
  by_cases hx : s.contains x = true
  · exact (remove_spec h hx).2.2
  · rw [remove_false_of_not_contains (by simpa using hx)]; exact h

theorem mkIntSet_invariant (c : Int) : Invariant (mkIntSet c) := by
  have h10 : DEFAULT_CAPACITY = 10 := rfl
  unfold Invariant mkIntSet
  by_cases hc : c ≤ 0 <;> simp [hc, h10] <;> omega

theorem copyIntSet_spec {s : IntSet} (h : Invariant s) :
    Invariant (copyIntSet s) ∧ dumpSeq (copyIntSet s) = dumpSeq s := by
  obtain ⟨hnd, h1, h2, h3⟩ := h
  have hd : s.used ≤ s.data.length := by omega
  have hdump : dumpSeq (copyIntSet s) = dumpSeq s := by
    show (copyBuf s.data s.used s.capacity).take s.used = s.data.take s.used
    exact copyBuf_take h1 hd
  refine ⟨⟨?_, h1, h2, ?_⟩, hdump⟩
  · show (dumpSeq (copyIntSet s)).Nodup
    rw [hdump]; exact hnd
  · exact copyBuf_length _ hd

theorem assign_eq_copy (s rhs : IntSet) : s.assign rhs = copyIntSet rhs := rfl

theorem reset_invariant {s : IntSet} (h : Invariant s) : Invariant s.reset :=
  ⟨by simp [reset, dumpSeq], by simp [reset], h.2.2.1, h.2.2.2⟩

/-- One mutating step of the lifecycle the spec describes: an `add`, a
`remove`, a `reset`, replacing the working set by a copy of itself
(copy construction), or replacing it by assignment from another set. -/
inductive Op where
  | addOp (x : Int)
  | removeOp (x : Int)
  | resetOp
  | copyOp
  | assignOp (t : IntSet)
deriving DecidableEq

/-- Effect of one lifecycle step on the working set. -/
def applyOp (s : IntSet) : Op → IntSet
  | .addOp x => (s.add x).1
  | .removeOp x => (s.remove x).1
  | .resetOp => s.reset
  | .copyOp => copyIntSet s
  | .assignOp t => s.assign t

/-- A step is admissible when any set assigned from is itself a valid
IntSet object (in the spec's scenario it was built by such a sequence
too). -/
def OpOK : Op → Prop
  | .assignOp t => Invariant t
  | _ => True

/-- Run a sequence of lifecycle steps from a starting state. -/
def runOps (s : IntSet) (ops : List Op) : IntSet := ops.foldl applyOp s

theorem applyOp_invariant {s : IntSet} (h : Invariant s) {op : Op}
    (hop : OpOK op) : Invariant (applyOp s op) := by
  cases op with
  | addOp x => exact add_invariant h x
  | removeOp x => exact remove_invariant h x
  | resetOp => exact reset_invariant h
  | copyOp => exact (copyIntSet_spec h).1
  | assignOp t =>
    rw [applyOp, assign_eq_copy]
    exact (copyIntSet_spec hop).1

theorem runOps_invariant {s : IntSet} (h : Invariant s) :
    ∀ {ops : List Op}, (∀ op ∈ ops, OpOK op) → Invariant (runOps s ops) := by
  intro ops
  induction ops generalizing s with
  | nil => intro _; exact h
  | cons op rest ih =>
    intro hops
    have h1 : Invariant (applyOp s op) :=
      applyOp_invariant h (hops op (List.mem_cons_self op rest))
    exact ih h1 fun o ho => hops o (List.mem_cons_of_mem op ho)

theorem growIfFull_bounds {s : IntSet} (h1 : s.used ≤ s.capacity)
    (h2 : 1 ≤ s.capacity) (h3 : s.data.length = s.capacity) :
    s.used < (growIfFull s).capacity ∧
      (growIfFull s).data.length = (growIfFull s).capacity ∧
      (growIfFull s).used = s.used := by
  by_cases hfull : s.used ≥ s.capacity
  · rw [growIfFull, if_pos hfull]
    have hcap : (s.resize ((3 * s.capacity / 2 + 1 : Nat) : Int)).capacity =
        3 * s.capacity / 2 + 1 := by
      simp only [resize]
      rw [if_neg (by omega), if_neg (by omega)]
      omega
    refine ⟨?_, ?_, rfl⟩
    · rw [hcap]; omega
    · rw [hcap]
      show (copyBuf s.data s.used _).length = _
      rw [if_neg (by omega), if_neg (by omega)]
      exact copyBuf_length _ (by omega)
  · rw [growIfFull, if_neg hfull]
    exact ⟨by omega, h3, rfl⟩

theorem unionStep_spec {u : IntSet} (h : Invariant u) (v : Int) :
    Invariant (unionStep u v) ∧
      (∀ y, y ∈ dumpSeq (unionStep u v) ↔ y ∈ dumpSeq u ∨ y = v) := by
  by_cases hc : u.contains v = false
  · rw [unionStep, if_pos hc]
    obtain ⟨-, hd, hi⟩ := add_spec h hc
    refine ⟨hi, fun y => ?_⟩
    rw [hd]; simp
  · rw [unionStep, if_neg hc]
    have hv : v ∈ dumpSeq u := contains_iff.mp (by simpa using hc)
    refine ⟨h, fun y => ⟨Or.inl, ?_⟩⟩
    rintro (hy | rfl)
    · exact hy
    · exact hv

theorem unionFold_spec : ∀ (l : List Int) (u : IntSet), Invariant u →
    Invariant (l.foldl unionStep u) ∧
      (∀ y, y ∈ dumpSeq (l.foldl unionStep u) ↔ y ∈ dumpSeq u ∨ y ∈ l) := by
  intro l
  induction l with
  | nil => exact fun u h => ⟨h, by simp⟩
  | cons v rest ih =>
    intro u h
    obtain ⟨hsi, hsm⟩ := unionStep_spec h v
    obtain ⟨hi, hm⟩ := ih (unionStep u v) hsi
    refine ⟨hi, fun y => ?_⟩
    rw [List.foldl_cons] at *
    rw [hm y, hsm y, List.mem_cons, or_assoc]

theorem unionWith_spec {A B : IntSet} (hA : Invariant A) (hB : Invariant B) :
    Invariant (A.unionWith B) ∧
      (∀ y, y ∈ dumpSeq (A.unionWith B) ↔ y ∈ dumpSeq A ∨ y ∈ dumpSeq B) := by
  obtain ⟨hci, hcd⟩ := copyIntSet_spec hA
  obtain ⟨hi, hm⟩ := unionFold_spec (dumpSeq B) (copyIntSet A) hci
  have hval : A.unionWith B = (dumpSeq B).foldl unionStep (copyIntSet A) := rfl
  rw [hval]
  exact ⟨hi, fun y => by rw [hm y, hcd]⟩

theorem foldl_invariant (g : IntSet → Int → IntSet)
    (hg : ∀ r v, Invariant r → Invariant (g r v)) :
    ∀ (l : List Int) (u : IntSet), Invariant u → Invariant (l.foldl g u) := by
  intro l
  induction l with
  | nil => exact fun u h => h
  | cons v rest ih => exact fun u h => ih (g u v) (hg u v h)

theorem intersectStep_invariant (other : IntSet) :
    ∀ (r : IntSet) (v : Int), Invariant r → Invariant (intersectStep other r v) := by
  intro r v h
  rw [intersectStep]
  by_cases hc : other.contains v = false
  · rw [if_pos hc]; exact remove_invariant h v
  · rw [if_neg hc]; exact h

theorem subtractStep_invariant :
    ∀ (r : IntSet) (v : Int), Invariant r → Invariant (subtractStep r v) := by
  intro r v h
  rw [subtractStep]
  by_cases hc : r.contains v
  · rw [if_pos hc]; exact remove_invariant h v
  · rw [if_neg hc]; exact h

theorem intersect_invariant {A B : IntSet} (hA : Invariant A) :
    Invariant (A.intersect B) :=
  foldl_invariant (intersectStep B) (intersectStep_invariant B) _ _
    (copyIntSet_spec hA).1

theorem subtract_invariant {A B : IntSet} (hA : Invariant A) :
    Invariant (A.subtract B) :=
  foldl_invariant subtractStep subtractStep_invariant _ _ (copyIntSet_spec hA).1

theorem foldl_triple_frame (G : IntSet → IntSet → IntSet → Nat → IntSet) :
    ∀ (n : Nat) (u a b : IntSet),
      (List.range n).foldl
        (fun st i => (G st.1 st.2.1 st.2.2 i, st.2.1, st.2.2)) (u, a, b) =
      ((List.range n).foldl (fun r i => G r a b i) u, a, b) := by
  intro n
  induction n with
  | zero => intro u a b; rfl
  | succ n ih =>
    intro u a b
    rw [List.range_succ, List.foldl_append, List.foldl_append, ih u a b]
    rfl

theorem rangeFold_eq_takeFold (g : IntSet → Int → IntSet) (d : List Int) :
    ∀ (n : Nat) (u : IntSet), n ≤ d.length →
      (List.range n).foldl (fun r i => g r (d.getD i 0)) u = (d.take n).foldl g u := by
  intro n
  induction n with
  | zero => intro u _; rfl
  | succ n ih =>
    intro u h
    rw [List.range_succ, List.foldl_append, List.take_succ,
      List.getElem?_eq_getElem (by omega : n < d.length)]
    rw [List.foldl_append, ih u (by omega)]
    simp [List.getElem?_eq_getElem (show n < d.length by omega)]

end IntSet

open IntSet

/-- C1 (code_bug): `IntSet::resize` checks `new_capacity <= 0` before it
checks `new_capacity < used`, so a non-positive request with a non-empty
set gives capacity `DEFAULT_CAPACITY` instead of the claimed (and
source-documented) clamp to exactly `count`: from the valid state with
count = 3 shown here, `resize(0)` yields capacity 10, not 3.  From a
valid state with count = 11 the same call even yields capacity 10 < 11,
breaking the invariant (and overflowing the copy loop's target buffer
in the C++). -/
theorem resize_nonpositive_ignores_count :
    Invariant ⟨[1, 2, 3], 3, 3⟩ ∧
    (IntSet.resize ⟨[1, 2, 3], 3, 3⟩ 0).capacity = DEFAULT_CAPACITY ∧
    (IntSet.resize ⟨[1, 2, 3], 3, 3⟩ 0).used = 3 ∧
    ¬(IntSet.resize ⟨[1, 2, 3], 3, 3⟩ 0).capacity = 3 ∧
    Invariant ⟨[1, 2, 3, 4, 5, 6, 7, 8, 9, 10, 11], 11, 11⟩ ∧
    ¬Invariant
      (IntSet.resize ⟨[1, 2, 3, 4, 5, 6, 7, 8, 9, 10, 11], 11, 11⟩ 0) := by
  decide

/-- C2: starting from any freshly constructed set, after any sequence of
add / remove / reset / copy-construction / assignment steps (each
assignment source being a valid object), the values at positions
[0, count) are pairwise distinct and count never exceeds capacity. -/
theorem op_sequences_preserve_invariant (c : Int) (ops : List Op)
    (hops : ∀ op ∈ ops, OpOK op) :
    (dumpSeq (runOps (mkIntSet c) ops)).Nodup ∧
      (runOps (mkIntSet c) ops).used ≤ (runOps (mkIntSet c) ops).capacity := by
  have h := runOps_invariant (mkIntSet_invariant c) hops
  exact ⟨h.1, h.2.1⟩

/-- Witness for C2 at a concrete operation sequence. -/
theorem op_sequences_preserve_invariant_witness :
    (∀ op ∈ ([Op.addOp 5, Op.addOp 3, Op.addOp 9, Op.removeOp 3, Op.copyOp,
        Op.resetOp, Op.addOp 5, Op.assignOp ⟨[4, 2], 2, 2⟩] : List Op), OpOK op) ∧
    ((dumpSeq (runOps (mkIntSet 2) [Op.addOp 5, Op.addOp 3, Op.addOp 9,
        Op.removeOp 3, Op.copyOp, Op.resetOp, Op.addOp 5,
        Op.assignOp ⟨[4, 2], 2, 2⟩])).Nodup ∧
      (runOps (mkIntSet 2) [Op.addOp 5, Op.addOp 3, Op.addOp 9, Op.removeOp 3,
        Op.copyOp, Op.resetOp, Op.addOp 5, Op.assignOp ⟨[4, 2], 2, 2⟩]).used ≤
      (runOps (mkIntSet 2) [Op.addOp 5, Op.addOp 3, Op.addOp 9, Op.removeOp 3,
        Op.copyOp, Op.resetOp, Op.addOp 5, Op.assignOp ⟨[4, 2], 2, 2⟩]).capacity) := by
  have hops : ∀ op ∈ ([Op.addOp 5, Op.addOp 3, Op.addOp 9, Op.removeOp 3,
      Op.copyOp, Op.resetOp, Op.addOp 5,
      Op.assignOp ⟨[4, 2], 2, 2⟩] : List Op), OpOK op := by
    intro op hop
    fin_cases hop <;> trivial
  exact ⟨hops, op_sequences_preserve_invariant 2 _ hops⟩

/-- C5: from any valid set whose count has reached its capacity, adding a
value not yet present grows the storage to exactly
floor(1.5 * capacity) + 1 = 3 * capacity / 2 + 1, which is strictly
larger than the old capacity. -/
theorem add_at_capacity_grows (s : IntSet) (x : Int) (h : Invariant s)
    (hfull : s.used = s.capacity) (hx : s.contains x = false) :
    (s.add x).1.capacity = 3 * s.capacity / 2 + 1 ∧
      s.capacity < 3 * s.capacity / 2 + 1 := by
  have hge : s.used ≥ s.capacity := le_of_eq hfull.symm
  have hval : s.add x =
      ({ growIfFull s with
          data := (growIfFull s).data.set (growIfFull s).used x
          used := (growIfFull s).used + 1 }, true) := by
    rw [IntSet.add, if_pos (by simp [hx])]
  constructor
  · rw [hval]
    show (growIfFull s).capacity = _
    rw [growIfFull, if_pos hge]
    simp only [IntSet.resize]
    rw [if_neg (by omega), if_neg (by omega)]
    omega
  · omega

/-- Witness for C5 at a concrete full set. -/
theorem add_at_capacity_grows_witness :
    (Invariant ⟨[7], 1, 1⟩ ∧ (⟨[7], 1, 1⟩ : IntSet).used = (⟨[7], 1, 1⟩ : IntSet).capacity ∧
      (⟨[7], 1, 1⟩ : IntSet).contains 9 = false) ∧
    (((⟨[7], 1, 1⟩ : IntSet).add 9).1.capacity =
        3 * (⟨[7], 1, 1⟩ : IntSet).capacity / 2 + 1 ∧
      (⟨[7], 1, 1⟩ : IntSet).capacity < 3 * (⟨[7], 1, 1⟩ : IntSet).capacity / 2 + 1) :=
  ⟨⟨by decide, by decide, by decide⟩,
    add_at_capacity_grows ⟨[7], 1, 1⟩ 9 (by decide) (by decide) (by decide)⟩

/-- C8: `add` of an already-present value returns false and leaves the
whole state (buffer, capacity, count) unchanged; `remove` of an absent
value returns false and leaves the whole state unchanged.  In both
cases the boolean is the only signal. -/
theorem noop_add_present_remove_absent (s : IntSet) (x : Int) :
    (s.contains x = true → s.add x = (s, false)) ∧
      (s.contains x = false → s.remove x = (s, false)) :=
  ⟨fun hx => add_false_of_contains hx, fun hx => remove_false_of_not_contains hx⟩

/-- Witness for C8 on a concrete set. -/
theorem noop_add_present_remove_absent_witness :
    ((⟨[5, 0], 2, 1⟩ : IntSet).contains 5 = true ∧
      (⟨[5, 0], 2, 1⟩ : IntSet).add 5 = (⟨[5, 0], 2, 1⟩, false)) ∧
    ((⟨[5, 0], 2, 1⟩ : IntSet).contains 7 = false ∧
      (⟨[5, 0], 2, 1⟩ : IntSet).remove 7 = (⟨[5, 0], 2, 1⟩, false)) :=
  ⟨⟨by decide, (noop_add_present_remove_absent ⟨[5, 0], 2, 1⟩ 5).1 (by decide)⟩,
    ⟨by decide, (noop_add_present_remove_absent ⟨[5, 0], 2, 1⟩ 7).2 (by decide)⟩⟩

/-- C9: from any reachable state (count within capacity, capacity at
least 1, buffer of size capacity), the conditional resize at the start
of `add` leaves the capacity strictly above the old count and the
buffer exactly that large, so the subsequent write `data[used] = anInt`
is within bounds. -/
theorem add_write_within_bounds (s : IntSet) (h1 : s.used ≤ s.capacity)
    (h2 : 1 ≤ s.capacity) (h3 : s.data.length = s.capacity) :
    s.used < (growIfFull s).capacity ∧
      (growIfFull s).data.length = (growIfFull s).capacity ∧
      (growIfFull s).used = s.used :=
  growIfFull_bounds h1 h2 h3

/-- Witness for C9 at a concrete full state. -/
theorem add_write_within_bounds_witness :
    ((⟨[7], 1, 1⟩ : IntSet).used ≤ (⟨[7], 1, 1⟩ : IntSet).capacity ∧
      1 ≤ (⟨[7], 1, 1⟩ : IntSet).capacity ∧
      (⟨[7], 1, 1⟩ : IntSet).data.length = (⟨[7], 1, 1⟩ : IntSet).capacity) ∧
    ((⟨[7], 1, 1⟩ : IntSet).used < (growIfFull ⟨[7], 1, 1⟩).capacity ∧
      (growIfFull ⟨[7], 1, 1⟩).data.length = (growIfFull ⟨[7], 1, 1⟩).capacity ∧
      (growIfFull ⟨[7], 1, 1⟩).used = (⟨[7], 1, 1⟩ : IntSet).used) :=
  ⟨⟨by decide, by decide, by decide⟩,
    add_write_within_bounds ⟨[7], 1, 1⟩ (by decide) (by decide) (by decide)⟩

/-- C3 helper: `isSubsetOf` answers true exactly when every member of
the receiver is a member of the other set. -/
theorem isSubsetOf_iff {A B : IntSet} :
    A.isSubsetOf B = true ↔ ∀ x ∈ dumpSeq A, x ∈ dumpSeq B := by
  rw [IntSet.isSubsetOf]
  by_cases he : A.isEmpty
  · have hu : A.used = 0 := by simpa [isEmpty] using he
    simp [he, dumpSeq, hu]
  · rw [if_neg he]
    simp only [List.all_eq_true]
    constructor
    · intro h x hx
      exact contains_iff.mp (h x hx)
    · intro h x hx
      exact contains_iff.mpr (h x hx)

/-- C3 helper: under the invariants, `operator==` answers true exactly
when the two sets have the same members. -/
theorem intSetEq_true_iff {A B : IntSet} (hA : Invariant A) (hB : Invariant B) :
    intSetEq A B = true ↔
      (∀ x ∈ dumpSeq A, x ∈ dumpSeq B) ∧ (∀ x ∈ dumpSeq B, x ∈ dumpSeq A) := by
  constructor
  · intro h
    rw [intSetEq] at h
    by_cases hsz : A.size != B.size
    · rw [if_pos hsz] at h; simp at h
    · rw [if_neg hsz] at h
      by_cases hsub : A.isSubsetOf B && B.isSubsetOf A
      · obtain ⟨h1, h2⟩ : A.isSubsetOf B = true ∧ B.isSubsetOf A = true := by
          simpa using hsub
        exact ⟨isSubsetOf_iff.mp h1, isSubsetOf_iff.mp h2⟩
      · rw [if_neg hsub] at h; simp at h
  · rintro ⟨h1, h2⟩
    have hsubA : A.isSubsetOf B = true := isSubsetOf_iff.mpr h1
    have hsubB : B.isSubsetOf A = true := isSubsetOf_iff.mpr h2
    have hp1 : (dumpSeq A).Subperm (dumpSeq B) :=
      hA.1.subperm (by intro x hx; exact h1 x hx)
    have hp2 : (dumpSeq B).Subperm (dumpSeq A) :=
      hB.1.subperm (by intro x hx; exact h2 x hx)
    have hlen : (dumpSeq A).length = (dumpSeq B).length :=
      le_antisymm hp1.length_le hp2.length_le
    have hsz : A.size = B.size := by
      rw [IntSet.size, IntSet.size, ← dumpSeq_length hA, ← dumpSeq_length hB, hlen]
    rw [intSetEq, if_neg (by simp [hsz]), if_pos (by simp [hsubA, hsubB])]

/-- C3: two valid sets compare equal under `operator==` exactly when each
is a subset of the other; equivalently, exactly when they agree on
membership of every integer (internal order and capacity play no
role). -/
theorem eq_iff_mutual_subset (A B : IntSet) (hA : Invariant A) (hB : Invariant B) :
    (intSetEq A B = true ↔ (A.isSubsetOf B = true ∧ B.isSubsetOf A = true)) ∧
    (intSetEq A B = true ↔ ∀ x : Int, A.contains x = B.contains x) := by
  constructor
  · constructor
    · intro h
      obtain ⟨h1, h2⟩ := (intSetEq_true_iff hA hB).mp h
      exact ⟨isSubsetOf_iff.mpr h1, isSubsetOf_iff.mpr h2⟩
    · rintro ⟨ha, hb⟩
      exact (intSetEq_true_iff hA hB).mpr ⟨isSubsetOf_iff.mp ha, isSubsetOf_iff.mp hb⟩
  · constructor
    · intro h x
      obtain ⟨h1, h2⟩ := (intSetEq_true_iff hA hB).mp h
      refine Bool.eq_iff_iff.mpr ?_
      rw [contains_iff, contains_iff]
      exact ⟨h1 x, h2 x⟩
    · intro h
      refine (intSetEq_true_iff hA hB).mpr ⟨?_, ?_⟩
      · intro x hx
        exact contains_iff.mp ((h x) ▸ contains_iff.mpr hx)
      · intro x hx
        exact contains_iff.mp ((h x).symm ▸ contains_iff.mpr hx)

/-- Witness for C3 on two concrete valid sets holding the same members
in different internal order and with different capacities. -/
theorem eq_iff_mutual_subset_witness :
    (Invariant ⟨[1, 2], 2, 2⟩ ∧ Invariant ⟨[2, 1, 0], 3, 2⟩) ∧
    ((intSetEq ⟨[1, 2], 2, 2⟩ ⟨[2, 1, 0], 3, 2⟩ = true ↔
        ((⟨[1, 2], 2, 2⟩ : IntSet).isSubsetOf ⟨[2, 1, 0], 3, 2⟩ = true ∧
          (⟨[2, 1, 0], 3, 2⟩ : IntSet).isSubsetOf ⟨[1, 2], 2, 2⟩ = true)) ∧
      (intSetEq ⟨[1, 2], 2, 2⟩ ⟨[2, 1, 0], 3, 2⟩ = true ↔
        ∀ x : Int, (⟨[1, 2], 2, 2⟩ : IntSet).contains x =
          (⟨[2, 1, 0], 3, 2⟩ : IntSet).contains x)) :=
  ⟨⟨by decide, by decide⟩,
    eq_iff_mutual_subset ⟨[1, 2], 2, 2⟩ ⟨[2, 1, 0], 3, 2⟩ (by decide) (by decide)⟩

/-- C4: on an initially empty set and distinct values a and b, the
sequence add(a), add(b), remove(a), add(a) leaves dump order b then a:
the re-added value is appended at the current end, and b, which stayed
present throughout, keeps its position before the re-added a. -/
theorem readd_appends_at_end (c a b : Int) (hab : a ≠ b) :
    dumpSeq ((((((mkIntSet c).add a).1.add b).1.remove a).1.add a).1) = [b, a] := by
  have h0 : Invariant (mkIntSet c) := mkIntSet_invariant c
  have hd0 : dumpSeq (mkIntSet c) = [] := by
    show (mkIntSet c).data.take (mkIntSet c).used = []
    have : (mkIntSet c).used = 0 := rfl
    rw [this, List.take_zero]
  have hc0 : (mkIntSet c).contains a = false :=
    contains_false_iff.mpr (by simp [hd0])
  obtain ⟨-, hd1, h1⟩ := add_spec h0 hc0
  rw [hd0, List.nil_append] at hd1
  have hc1 : (((mkIntSet c).add a).1).contains b = false :=
    contains_false_iff.mpr (by simp [hd1]; exact fun h => hab h.symm)
  obtain ⟨-, hd2, h2⟩ := add_spec h1 hc1
  rw [hd1, show ([a] ++ [b] : List Int) = [a, b] from rfl] at hd2
  have hc2 : ((((mkIntSet c).add a).1.add b).1).contains a = true :=
    contains_iff.mpr (by simp [hd2])
  obtain ⟨-, hd3, h3⟩ := remove_spec h2 hc2
  rw [hd2] at hd3
  have herase : ([a, b] : List Int).erase a = [b] := by
    simp [List.erase_cons]
  rw [herase] at hd3
  have hc3 : (((((mkIntSet c).add a).1.add b).1.remove a).1).contains a = false :=
    contains_false_iff.mpr (by simp [hd3]; exact hab)
  obtain ⟨-, hd4, -⟩ := add_spec h3 hc3
  rw [hd3] at hd4
  simpa using hd4

/-- Witness for C4 at concrete distinct values. -/
theorem readd_appends_at_end_witness :
    (1 : Int) ≠ 2 ∧
      dumpSeq ((((((mkIntSet 0).add 1).1.add 2).1.remove 1).1.add 1).1) = [2, 1] :=
  ⟨by decide, readd_appends_at_end 0 1 2 (by decide)⟩

/-- C10: `remove` returns true exactly when the value was present: once
the initial `contains` check succeeds the inner scan always finds the
value, so the trailing return-false branch after the scan can never
execute. -/
theorem remove_true_iff_contains (s : IntSet) (x : Int) :
    (s.remove x).2 = s.contains x := by
  by_cases hx : s.contains x = true
  · rw [hx, IntSet.remove, if_pos hx]
    cases hfind : findFirst x (s.data.take s.used) with
    | none => exact absurd (contains_iff.mp hx) (findFirst_none_iff.mp hfind)
    | some i => simp [hfind]
  · have hx' : s.contains x = false := by simpa using hx
    rw [hx', remove_false_of_not_contains hx']

/-- C6: for any two valid sets, `A.unionWith(B) == B.unionWith(A)`: the
two unions hold the same members (only their internal order may
differ), so `operator==` answers true. -/
theorem unionWith_comm (A B : IntSet) (hA : Invariant A) (hB : Invariant B) :
    intSetEq (A.unionWith B) (B.unionWith A) = true := by
  obtain ⟨hiAB, hmAB⟩ := unionWith_spec hA hB
  obtain ⟨hiBA, hmBA⟩ := unionWith_spec hB hA
  refine (intSetEq_true_iff hiAB hiBA).mpr ⟨?_, ?_⟩
  · intro x hx
    exact (hmBA x).mpr (Or.symm ((hmAB x).mp hx))
  · intro x hx
    exact (hmAB x).mpr (Or.symm ((hmBA x).mp hx))

/-- Witness for C6 on two concrete overlapping sets. -/
theorem unionWith_comm_witness :
    (Invariant ⟨[1, 2], 2, 2⟩ ∧ Invariant ⟨[2, 3], 2, 2⟩) ∧
    intSetEq ((⟨[1, 2], 2, 2⟩ : IntSet).unionWith ⟨[2, 3], 2, 2⟩)
      ((⟨[2, 3], 2, 2⟩ : IntSet).unionWith ⟨[1, 2], 2, 2⟩) = true :=
  ⟨⟨by decide, by decide⟩,
    unionWith_comm ⟨[1, 2], 2, 2⟩ ⟨[2, 3], 2, 2⟩ (by decide) (by decide)⟩

/-- C7: running unionWith, intersect and subtract with the states of all
three objects threaded explicitly shows each call leaves the invoking
set and the argument set exactly as they were (same buffer, capacity
and count) while the first component equals the plain result, which is
a fresh valid instance built from a deep copy. -/
theorem set_algebra_frame (A B : IntSet) (hA : Invariant A) (hB : Invariant B) :
    unionWithS A B = (A.unionWith B, A, B) ∧
    intersectS A B = (A.intersect B, A, B) ∧
    subtractS A B = (A.subtract B, A, B) ∧
    Invariant (A.unionWith B) ∧ Invariant (A.intersect B) ∧
      Invariant (A.subtract B) := by
  have hAlen : A.used ≤ A.data.length := by
    obtain ⟨-, h1, -, h3⟩ := hA; omega
  have hBlen : B.used ≤ B.data.length := by
    obtain ⟨-, h1, -, h3⟩ := hB; omega
  refine ⟨?_, ?_, ?_, (unionWith_spec hA hB).1, intersect_invariant hA,
    subtract_invariant hA⟩
  · exact (foldl_triple_frame
        (fun r _ b i => unionStep r (b.data.getD i 0)) B.used (copyIntSet A) A B).trans
      (congrArg (fun x => (x, A, B))
        (rangeFold_eq_takeFold unionStep B.data B.used (copyIntSet A) hBlen))
  · exact (foldl_triple_frame
        (fun r a b i => intersectStep b r (a.data.getD i 0)) A.used (copyIntSet A) A B).trans
      (congrArg (fun x => (x, A, B))
        (rangeFold_eq_takeFold (intersectStep B) A.data A.used (copyIntSet A) hAlen))
  · exact (foldl_triple_frame
        (fun r _ b i => subtractStep r (b.data.getD i 0)) B.used (copyIntSet A) A B).trans
      (congrArg (fun x => (x, A, B))
        (rangeFold_eq_takeFold subtractStep B.data B.used (copyIntSet A) hBlen))

/-- Witness for C7 on two concrete sets. -/
theorem set_algebra_frame_witness :
    (Invariant ⟨[1, 2], 2, 2⟩ ∧ Invariant ⟨[2, 3], 2, 2⟩) ∧
    (unionWithS ⟨[1, 2], 2, 2⟩ ⟨[2, 3], 2, 2⟩ =
        ((⟨[1, 2], 2, 2⟩ : IntSet).unionWith ⟨[2, 3], 2, 2⟩, ⟨[1, 2], 2, 2⟩,
          ⟨[2, 3], 2, 2⟩) ∧
      intersectS ⟨[1, 2], 2, 2⟩ ⟨[2, 3], 2, 2⟩ =
        ((⟨[1, 2], 2, 2⟩ : IntSet).intersect ⟨[2, 3], 2, 2⟩, ⟨[1, 2], 2, 2⟩,
          ⟨[2, 3], 2, 2⟩) ∧
      subtractS ⟨[1, 2], 2, 2⟩ ⟨[2, 3], 2, 2⟩ =
        ((⟨[1, 2], 2, 2⟩ : IntSet).subtract ⟨[2, 3], 2, 2⟩, ⟨[1, 2], 2, 2⟩,
          ⟨[2, 3], 2, 2⟩) ∧
      Invariant ((⟨[1, 2], 2, 2⟩ : IntSet).unionWith ⟨[2, 3], 2, 2⟩) ∧
      Invariant ((⟨[1, 2], 2, 2⟩ : IntSet).intersect ⟨[2, 3], 2, 2⟩) ∧
      Invariant ((⟨[1, 2], 2, 2⟩ : IntSet).subtract ⟨[2, 3], 2, 2⟩)) :=
  ⟨⟨by decide, by decide⟩,
    set_algebra_frame ⟨[1, 2], 2, 2⟩ ⟨[2, 3], 2, 2⟩ (by decide) (by decide)⟩
